import Mathlib

/-!
Verification of the PNML Petri-net loader in src/parse_task1.py.

The Python module defines a class PetriNet with
  - load_from_pnml: parses place/transition/arc elements from an XML tree
    (with a namespace helper find_all), filling self.places, self.transitions
    and self.arcs, then calls _build_relationships;
  - _build_relationships: sorts the identifier lists, resets and refills every
    transition preset/postset from the arcs, then builds the incidence matrix;
  - _generate_incidence_matrix: the signed place x transition matrix;
  - check_consistency: structural validation returning a boolean and printing
    a list of defect messages.

This file gives a shallow embedding of that code on Lean lists:
  - Python dicts keyed by strings are association lists with unique keys
    (dictInsert overwrites the value at an existing key in place, as dicts do);
  - Python exceptions that can escape load_from_pnml (ValueError from int(),
    ValueError from list.index, KeyError from dict lookup) are modelled with
    Except / Option results;
  - Python string ordering (sorted) is insertion sort by the code-point
    lexicographic comparator charListLt, which agrees with CPython;
  - the printed defect messages are modelled by the Defect datatype carrying
    exactly the data interpolated into each message.
-/

/-! ## Python string primitives -/

/-- Equality of characters follows from equality of their code points. -/
theorem charEqOfToNat {a b : Char} (h : a.toNat = b.toNat) : a = b :=
  Char.eq_of_val_eq (UInt32.ext h)

/-- Code-point lexicographic strict comparison of character lists, as CPython
compares strings. -/
def charListLt : List Char → List Char → Bool
  | [], [] => false
  | [], _ :: _ => true
  | _ :: _, [] => false
  | a :: as, b :: bs =>
    if a.toNat < b.toNat then true
    else if b.toNat < a.toNat then false
    else charListLt as bs

/-- Strict comparison of strings by code points (Python s < t). -/
def pyStrLt (s t : String) : Bool := charListLt s.data t.data

/-- Non-strict comparison of strings by code points (Python s <= t). -/
def pyStrLe (s t : String) : Bool := pyStrLt s t || s == t

/-- The ordering relation used by the model of Python sorted. -/
def strLeRel (s t : String) : Prop := pyStrLe s t = true

/-- The strict ordering relation on strings, for stating sortedness. -/
def strLtRel (s t : String) : Prop := pyStrLt s t = true

instance : DecidableRel strLeRel := fun s t => by unfold strLeRel; infer_instance

instance : DecidableRel strLtRel := fun s t => by unfold strLtRel; infer_instance

/-- Python sorted on a list of strings. Python uses a stable mergesort; on the
key lists of this development (which are duplicate-free) every sort agrees, and
insertion sort is the most convenient to reason about. -/
def pySorted (l : List String) : List String := List.insertionSort strLeRel l

/-- Python s.split(sep) on character lists: always returns at least one piece. -/
def charSplit (sep : Char) : List Char → List Char → List (List Char)
  | acc, [] => [acc.reverse]
  | acc, c :: cs =>
    if c == sep then acc.reverse :: charSplit sep [] cs
    else charSplit sep (c :: acc) cs

/-- Python s.split(sep) for a one-character separator. -/
def pySplit (sep : Char) (s : String) : List String :=
  (charSplit sep [] s.data).map String.mk

/-- Python s.strip(c): removes every leading and trailing occurrence of c. -/
def pyStripChar (c : Char) (s : String) : String :=
  String.mk (((s.data.dropWhile (fun x => x == c)).reverse.dropWhile
    (fun x => x == c)).reverse)

/-- Whitespace stripped by Python int() before parsing. -/
def isPySpace (c : Char) : Bool :=
  c == ' ' || c == '\t' || c == '\n' || c == '\r' ||
    c == Char.ofNat 11 || c == Char.ofNat 12

/-- Decimal digit test on code points. -/
def isDigitCh (c : Char) : Bool := 48 ≤ c.toNat && c.toNat ≤ 57

/-- Value of a digit run (most significant first). -/
def digitsVal (cs : List Char) : Nat :=
  cs.foldl (fun a c => a * 10 + (c.toNat - 48)) 0

/-- Python int(s) on a decimal string literal: strips whitespace, accepts an
optional sign and a non-empty digit run, and raises ValueError otherwise.
(The underscore digit separators accepted by CPython are not modelled; no
input of interest uses them.) -/
def pyInt (s : String) : Except String Int :=
  let t := ((s.data.dropWhile isPySpace).reverse.dropWhile isPySpace).reverse
  let sd : Bool × List Char :=
    match t with
    | c :: rest =>
      if c == '-' then (true, rest)
      else if c == '+' then (false, rest) else (false, t)
    | [] => (false, [])
  if !sd.2.isEmpty && sd.2.all isDigitCh then
    Except.ok (if sd.1 then -(digitsVal sd.2 : Int) else (digitsVal sd.2 : Int))
  else Except.error "ValueError"

/-! ## The XML element tree handed over by xml.etree.ElementTree -/

/-- An already-parsed XML element: tag (with any namespace as a braced
prefix of the tag string, as ElementTree stores it), attributes, text
content, child elements. -/
inductive Xml where
  | elem (tag : String) (attrs : List (String × String)) (text : Option String)
      (children : List Xml)

/-- Tag of an element. -/
def Xml.tagOf : Xml → String
  | .elem t _ _ _ => t

/-- Attribute list of an element. -/
def Xml.attrsOf : Xml → List (String × String)
  | .elem _ a _ _ => a

/-- Text content of an element (None when absent). -/
def Xml.textOf : Xml → Option String
  | .elem _ _ tx _ => tx

/-- Children of an element. -/
def Xml.childrenOf : Xml → List Xml
  | .elem _ _ _ cs => cs

mutual
/-- All strict descendants of an element in document (preorder) order,
as ElementTree findall with a .//tag path enumerates them. -/
def xmlDescendants : Xml → List Xml
  | .elem _ _ _ cs => xmlDescendantsList cs
/-- Descendants-or-self of a forest, in document order. -/
def xmlDescendantsList : List Xml → List Xml
  | [] => []
  | c :: cs => c :: (xmlDescendants c ++ xmlDescendantsList cs)
end

/-- Element.get(name): attribute lookup. -/
def attrGet (x : Xml) (name : String) : Option String :=
  (x.attrsOf.find? (fun kv => kv.1 == name)).map (fun kv => kv.2)

/-- node.findall(".//" + tag): every descendant with the given resolved tag,
in document order. -/
def findAllTag (x : Xml) (t : String) : List Xml :=
  (xmlDescendants x).filter (fun e => e.tagOf == t)

/-- node.find(tag): the first direct child with the given resolved tag. -/
def findChildTag (x : Xml) (t : String) : Option Xml :=
  x.childrenOf.find? (fun e => e.tagOf == t)

/-- The namespace URL the loader extracts from the root tag:
root.tag.split(chr(125))[0].strip(chr(123)). str.split always returns a
non-empty list, so the except IndexError fallback in the source is dead code
and the namespace mapping built from this value is always non-empty. -/
def nsUrlOf (rootTag : String) : String :=
  pyStripChar (Char.ofNat 123) ((pySplit (Char.ofNat 125) rootTag).headD "")

/-- The tag ElementTree resolves a prefixed path to, given the namespace map
built by the loader. With URL u the path token pnml:name denotes the
tag braced-u followed by name; ElementTree treats an empty URL as denoting
the unqualified name. -/
def qualifyTag (u name : String) : String :=
  if u = "" then name
  else String.mk (Char.ofNat 123 :: u.data) ++ String.mk (Char.ofNat 125 :: name.data)

/-! ## Python dicts as association lists -/

/-- Lookup in a dict modelled as an association list (first match). -/
def dictGet {α : Type} : List (String × α) → String → Option α
  | [], _ => none
  | kv :: rest, k => if kv.1 = k then some kv.2 else dictGet rest k

/-- Python k in d membership test. -/
def dictContains {α : Type} (l : List (String × α)) (k : String) : Bool :=
  (dictGet l k).isSome

/-- Python d[k] = v: overwrite in place when the key exists (dicts keep the
original position of an overwritten key), append otherwise. On the key-unique
lists this development manipulates, rewriting every occurrence of the key is
the same as rewriting the first. -/
def dictInsert {α : Type} (l : List (String × α)) (k : String) (v : α) :
    List (String × α) :=
  if dictContains l k then
    l.map (fun kv => if kv.1 = k then (k, v) else kv)
  else l ++ [(k, v)]

/-- In-place update of the value stored at a key (used for preset/postset
appends); a no-op when the key is absent. -/
def dictModify {α : Type} (l : List (String × α)) (k : String) (f : α → α) :
    List (String × α) :=
  l.map (fun kv => if kv.1 = k then (kv.1, f kv.2) else kv)

/-- Key list of a dict, in storage order. -/
def dictKeys {α : Type} (l : List (String × α)) : List String :=
  l.map (fun kv => kv.1)

/-! ## The PetriNet data model (class PetriNet, \_\_init\_\_) -/

/-- The per-transition record stored in self.transitions: the id key is kept
as the dict key, and preset/postset are the ordered lists of place
identifiers appended by \_build\_relationships. -/
structure Transition where
  preset : List String
  postset : List String
deriving DecidableEq

/-- An entry of self.arcs: the id, source and target attributes as read from
the arc element (None when the attribute is absent). -/
structure Arc where
  id : Option String
  source : Option String
  target : Option String
deriving DecidableEq

/-- The state of a PetriNet object: places maps a place id to its token
count, transitions maps a transition id to its preset/postset record, arcs
is the raw arc list, and the last three fields are the derived data written
by \_build\_relationships. -/
structure PetriNet where
  places : List (String × Int)
  transitions : List (String × Transition)
  arcs : List Arc
  place_ids : List String
  transition_ids : List String
  incidence_matrix : List (List Int)
deriving DecidableEq

/-- A freshly constructed PetriNet(): every container empty. -/
def PetriNet.init : PetriNet := ⟨[], [], [], [], [], []⟩

/-! ## \_generate\_incidence\_matrix -/

/-- Python list.index: the index of the first occurrence, None modelling the
ValueError raised when the element is absent. -/
def idxOf? : List String → String → Option Nat
  | [], _ => none
  | x :: xs, a => if x = a then some 0 else (idxOf? xs a).map (fun i => i + 1)

/-- Update the element at an index (matrix row or cell assignment); out of
range indices leave the list unchanged, a case the incidence builder never
reaches because every looked-up row index is below the row count. -/
def modifyAt {α : Type} : List α → Nat → (α → α) → List α
  | [], _, _ => []
  | x :: xs, 0, f => f x :: xs
  | x :: xs, i + 1, f => x :: modifyAt xs i f

/-- One preset or postset pass for a transition column c: for each listed
place id, add d to the cell at (place row, c). Returns none when a place id
is not in place\_ids (Python: list.index raises ValueError). -/
def addAtCol (pids : List String) (d : Int) (c : Nat) :
    List String → List (List Int) → Option (List (List Int))
  | [], m => some m
  | p :: ps, m =>
    match idxOf? pids p with
    | none => none
    | some r => addAtCol pids d c ps (modifyAt m r (fun row => modifyAt row c (fun v => v + d)))

/-- The column loop of \_generate\_incidence\_matrix: for each transition id
(enumerate order gives the column index c), subtract 1 at each preset row
and then add 1 at each postset row. Returns none when a transition id is not
a key of the transition dict (Python: KeyError). -/
def fillMatrix (tmap : List (String × Transition)) (pids : List String) :
    List String → Nat → List (List Int) → Option (List (List Int))
  | [], _, m => some m
  | t :: ts, c, m =>
    match dictGet tmap t with
    | none => none
    | some td =>
      match addAtCol pids (-1) c td.preset m with
      | none => none
      | some m1 =>
        match addAtCol pids 1 c td.postset m1 with
        | none => none
        | some m2 => fillMatrix tmap pids ts (c + 1) m2

/-- \_generate\_incidence\_matrix: an all-zero matrix of shape
len(place\_ids) x len(transition\_ids), then the column loop. The function
reads only the transition dict and the two id lists. -/
def generateIncidenceMatrix (tmap : List (String × Transition))
    (pids tids : List String) : Option (List (List Int)) :=
  fillMatrix tmap pids tids 0
    (List.replicate pids.length (List.replicate tids.length (0 : Int)))

/-! ## \_build\_relationships -/

/-- The reset loop: every preset and postset list becomes empty. -/
def resetPrePost (ts : List (String × Transition)) : List (String × Transition) :=
  ts.map (fun kv => (kv.1, ⟨[], []⟩))

/-- One iteration of the arc loop: a place-to-transition arc appends its
source to the preset of its target; otherwise a transition-to-place arc
appends its target to the postset of its source; every other arc is skipped.
An absent source or target attribute (None) is in neither dict, so such arcs
are skipped too, exactly as in Python. -/
def applyArc (places : List (String × Int)) (trans : List (String × Transition))
    (a : Arc) : List (String × Transition) :=
  match a.source, a.target with
  | some src, some tgt =>
    if dictContains places src && dictContains trans tgt then
      dictModify trans tgt (fun td => { td with preset := td.preset ++ [src] })
    else if dictContains trans src && dictContains places tgt then
      dictModify trans src (fun td => { td with postset := td.postset ++ [tgt] })
    else trans
  | _, _ => trans

/-- \_build\_relationships: sort the id lists, reset and refill the
preset/postset lists from the arcs, then build the incidence matrix. The
result is none exactly when \_generate\_incidence\_matrix raises, in which
case the Python call would propagate the exception. -/
def buildRelationships (n : PetriNet) : Option PetriNet :=
  match generateIncidenceMatrix
      (n.arcs.foldl (applyArc n.places) (resetPrePost n.transitions))
      (pySorted (dictKeys n.places)) (pySorted (dictKeys n.transitions)) with
  | some mat => some
      { places := n.places
        transitions := n.arcs.foldl (applyArc n.places) (resetPrePost n.transitions)
        arcs := n.arcs
        place_ids := pySorted (dictKeys n.places)
        transition_ids := pySorted (dictKeys n.transitions)
        incidence_matrix := mat }
  | none => none

/-! ## load\_from\_pnml -/

/-- The token count read from one place element: follow initialMarking then
text; a missing element, missing text or empty text leaves the default 0;
otherwise int() parses the text and can raise. -/
def parseMarking (u : String) (pe : Xml) : Except String Int :=
  match findChildTag pe (qualifyTag u "initialMarking") with
  | none => Except.ok 0
  | some mt =>
    match findChildTag mt (qualifyTag u "text") with
    | none => Except.ok 0
    | some tt =>
      match tt.textOf with
      | none => Except.ok 0
      | some s => if s = "" then Except.ok 0 else pyInt s

/-- The loop over place elements: the (id, token) pair of each, in order,
stopping at the first int() failure. -/
def placePairsLoop (u : String) : List Xml → Except String (List (String × Int))
  | [] => Except.ok []
  | pe :: rest =>
    match parseMarking u pe with
    | Except.error e => Except.error e
    | Except.ok t =>
      match placePairsLoop u rest with
      | Except.error e => Except.error e
      | Except.ok tl => Except.ok (((attrGet pe "id").getD "None", t) :: tl)

/-- The (id, token) pairs of the place elements, in document order. Python
would use None as the dict key for a place without an id attribute; that
corner is modelled by the string "None". The first int() failure aborts the
load, as the uncaught ValueError does. -/
def extractPlacePairs (root : Xml) : Except String (List (String × Int)) :=
  placePairsLoop (nsUrlOf root.tagOf)
    (findAllTag root (qualifyTag (nsUrlOf root.tagOf) "place"))

/-- The ids of the transition elements, in document order. -/
def extractTransIds (root : Xml) : List String :=
  (findAllTag root (qualifyTag (nsUrlOf root.tagOf) "transition")).map
    (fun te => (attrGet te "id").getD "None")

/-- The arc records of the arc elements, in document order. -/
def extractArcs (root : Xml) : List Arc :=
  (findAllTag root (qualifyTag (nsUrlOf root.tagOf) "arc")).map
    (fun ae => ⟨attrGet ae "id", attrGet ae "source", attrGet ae "target"⟩)

/-- The entity-population phase of load\_from\_pnml, acting on the current
object state: note that none of the three containers is cleared first, the
parsed entities are inserted into whatever the object already holds. Python
interleaves the int() calls with the dict insertions; on success the result
is the same as parsing all markings first, and on failure the same exception
escapes, so the split form is observationally equal. -/
def loadEntities (self : PetriNet) (root : Xml) : Except String PetriNet :=
  match extractPlacePairs root with
  | Except.error e => Except.error e
  | Except.ok pairs => Except.ok
      { self with
        places := pairs.foldl (fun d kv => dictInsert d kv.1 kv.2) self.places
        transitions := (extractTransIds root).foldl
          (fun d k => dictInsert d k ⟨[], []⟩) self.transitions
        arcs := self.arcs ++ extractArcs root }

/-- load\_from\_pnml after a successful document read: populate the entity
containers, then \_build\_relationships. A ValueError escaping the build
(impossible, as proved below) would also abort the load. -/
def loadFromPnml (self : PetriNet) (root : Xml) : Except String PetriNet :=
  match loadEntities self root with
  | Except.error e => Except.error e
  | Except.ok n1 =>
    match buildRelationships n1 with
    | some n2 => Except.ok n2
    | none => Except.error "ValueError"

/-- The net produced by loading a document into a fresh PetriNet(), with the
fresh object as a dummy value on the (load-failure) error path. -/
def loadedNet (root : Xml) : PetriNet :=
  match loadFromPnml PetriNet.init root with
  | Except.ok n => n
  | Except.error _ => PetriNet.init

/-! ## check\_consistency -/

/-- One defect message appended by check\_consistency, carrying exactly the
data the Python code interpolates into the message string. -/
inductive Defect where
  | noPlaces
  | noTransitions
  | badSource (arcId : Option String) (src : Option String)
  | badTarget (arcId : Option String) (tgt : Option String)
deriving DecidableEq

/-- Membership of an endpoint value in all\_nodes, the union of the place and
transition key sets; None is never a member. -/
def endpointKnown (n : PetriNet) : Option String → Bool
  | none => false
  | some s => dictContains n.places s || dictContains n.transitions s

/-- The defects one arc contributes, source check first. -/
def arcDefects (n : PetriNet) (a : Arc) : List Defect :=
  (if endpointKnown n a.source then [] else [Defect.badSource a.id a.source]) ++
    (if endpointKnown n a.target then [] else [Defect.badTarget a.id a.target])

/-- The full defect list of check\_consistency, in discovery order: the two
global checks, then the arcs in list order. -/
def consistencyErrors (n : PetriNet) : List Defect :=
  (if n.places.isEmpty then [Defect.noPlaces] else []) ++
    (if n.transitions.isEmpty then [Defect.noTransitions] else []) ++
    n.arcs.flatMap (arcDefects n)

/-- The boolean returned by check\_consistency: True exactly when no defect
was collected. -/
def check_consistency (n : PetriNet) : Bool :=
  (consistencyErrors n).isEmpty

/-! ## Order properties of the string comparator -/

/-- Unfolding of the comparator on two cons cells. -/
theorem charListLt_cons_iff {x y : Char} {xs ys : List Char} :
    charListLt (x :: xs) (y :: ys) = true ↔
      (x.toNat < y.toNat ∨ (x.toNat = y.toNat ∧ charListLt xs ys = true)) := by
  simp only [charListLt]
  by_cases h1 : x.toNat < y.toNat
  · simp [h1]
  · by_cases h2 : y.toNat < x.toNat
    · simp [h1, h2]; omega
    · have h3 : x.toNat = y.toNat := by omega
      simp [h1, h2, h3]

/-- The comparator is transitive. -/
theorem charListLt_trans {a b c : List Char} (h1 : charListLt a b = true)
    (h2 : charListLt b c = true) : charListLt a c = true := by
  induction a generalizing b c with
  | nil => cases b <;> cases c <;> simp_all [charListLt]
  | cons x xs ih =>
    cases b with
    | nil => simp [charListLt] at h1
    | cons y ys =>
      cases c with
      | nil => simp [charListLt] at h2
      | cons z zs =>
        rw [charListLt_cons_iff] at h1 h2 ⊢
        rcases h1 with h1 | ⟨h1e, h1r⟩ <;> rcases h2 with h2 | ⟨h2e, h2r⟩
        · exact Or.inl (by omega)
        · exact Or.inl (by omega)
        · exact Or.inl (by omega)
        · exact Or.inr ⟨by omega, ih h1r h2r⟩

/-- The comparator is total up to equality. -/
theorem charListLt_total (a b : List Char) :
    charListLt a b = true ∨ charListLt b a = true ∨ a = b := by
  induction a generalizing b with
  | nil => cases b <;> simp [charListLt]
  | cons x xs ih =>
    cases b with
    | nil => simp [charListLt]
    | cons y ys =>
      rcases Nat.lt_trichotomy x.toNat y.toNat with h | h | h
      · exact Or.inl (charListLt_cons_iff.mpr (Or.inl h))
      · rcases ih ys with hr | hr | hr
        · exact Or.inl (charListLt_cons_iff.mpr (Or.inr ⟨h, hr⟩))
        · exact Or.inr (Or.inl (charListLt_cons_iff.mpr (Or.inr ⟨h.symm, hr⟩)))
        · exact Or.inr (Or.inr (by rw [charEqOfToNat h, hr]))
      · exact Or.inr (Or.inl (charListLt_cons_iff.mpr (Or.inl h)))

instance : IsTotal String strLeRel := by
  constructor
  intro a b
  unfold strLeRel pyStrLe pyStrLt
  rcases charListLt_total a.data b.data with h | h | h
  · left; simp [h]
  · right; simp [h]
  · left
    have hab : a = b := by cases a; cases b; simp_all
    simp [hab]

instance : IsTrans String strLeRel := by
  constructor
  intro a b c h1 h2
  unfold strLeRel pyStrLe pyStrLt at h1 h2 ⊢
  rcases Bool.or_eq_true_iff.mp h1 with h1h | h1h <;>
    rcases Bool.or_eq_true_iff.mp h2 with h2h | h2h
  · simp [charListLt_trans h1h h2h]
  · have hbc : b = c := eq_of_beq h2h
    subst hbc; simp [h1h]
  · have hab : a = b := eq_of_beq h1h
    subst hab; simp [h2h]
  · have hab : a = b := eq_of_beq h1h
    subst hab; simp [h2h]

/-- A non-strict comparison between distinct strings is strict. -/
theorem strLtRel_of_le_ne {a b : String} (h : strLeRel a b) (hne : a ≠ b) :
    strLtRel a b := by
  unfold strLeRel pyStrLe at h
  unfold strLtRel
  rcases Bool.or_eq_true_iff.mp h with hh | hh
  · exact hh
  · exact absurd (eq_of_beq hh) hne

/-- The sort output is sorted for the non-strict order. -/
theorem pySorted_sorted (l : List String) : List.Sorted strLeRel (pySorted l) :=
  List.sorted_insertionSort strLeRel l

/-- The sort output is a permutation of the input. -/
theorem pySorted_perm (l : List String) : (pySorted l).Perm l :=
  List.perm_insertionSort strLeRel l

/-- A duplicate-free list sorted for the non-strict order is sorted for the
strict order. -/
theorem sorted_le_nodup_lt : ∀ (m : List String), List.Sorted strLeRel m →
    m.Nodup → List.Sorted strLtRel m
  | [], _, _ => List.sorted_nil
  | x :: xs, hs, hnd => by
    rw [List.sorted_cons] at hs ⊢
    rcases hs with ⟨hx, hxs⟩
    rcases List.nodup_cons.mp hnd with ⟨hnx, hnxs⟩
    exact ⟨fun b hb => strLtRel_of_le_ne (hx b hb) (fun he => hnx (he ▸ hb)),
      sorted_le_nodup_lt xs hxs hnxs⟩

/-- Sorting a duplicate-free key list gives a strictly sorted list. -/
theorem pySorted_sorted_lt {l : List String} (h : l.Nodup) :
    List.Sorted strLtRel (pySorted l) :=
  sorted_le_nodup_lt _ (pySorted_sorted l) ((pySorted_perm l).nodup_iff.mpr h)

/-! ## Dict lemmas -/

/-- Membership in the key list is the Python in test. -/
theorem dictContains_iff_mem_keys {α : Type} (l : List (String × α)) (k : String) :
    dictContains l k = true ↔ k ∈ dictKeys l := by
  induction l with
  | nil => simp [dictContains, dictGet, dictKeys]
  | cons kv rest ih =>
    by_cases h : kv.1 = k
    · simp [dictContains, dictGet, dictKeys, h]
    · simp only [dictContains, dictGet, if_neg h, dictKeys, List.map_cons,
        List.mem_cons]
      rw [← dictKeys, ← dictContains, ih]
      constructor
      · exact fun hm => Or.inr hm
      · rintro (hm | hm)
        · exact absurd hm.symm h
        · exact hm

/-- Key list after an insert: unchanged on overwrite, extended otherwise. -/
theorem dictKeys_dictInsert {α : Type} (l : List (String × α)) (k : String) (v : α) :
    dictKeys (dictInsert l k v) =
      if dictContains l k then dictKeys l else dictKeys l ++ [k] := by
  unfold dictInsert
  by_cases h : dictContains l k
  · simp only [h, if_true]
    unfold dictKeys
    rw [List.map_map]
    apply List.map_congr_left
    intro kv _
    by_cases hk : kv.1 = k <;> simp [hk]
  · simp [h, dictKeys]

/-- Inserting preserves key uniqueness. -/
theorem dictInsert_nodup {α : Type} {l : List (String × α)} (k : String) (v : α)
    (h : (dictKeys l).Nodup) : (dictKeys (dictInsert l k v)).Nodup := by
  rw [dictKeys_dictInsert]
  by_cases hc : dictContains l k
  · simpa [hc] using h
  · simp only [hc, if_false, Bool.false_eq_true]
    rw [List.nodup_append]
    refine ⟨h, List.nodup_singleton k, ?_⟩
    intro a ha
    simp only [List.mem_singleton]
    intro he
    subst he
    exact absurd ((dictContains_iff_mem_keys l a).mpr ha) (by simpa using hc)

/-- Folding inserts preserves key uniqueness. -/
theorem foldl_dictInsert_nodup {α : Type} (pairs : List (String × α))
    (l : List (String × α)) (h : (dictKeys l).Nodup) :
    (dictKeys (pairs.foldl (fun d kv => dictInsert d kv.1 kv.2) l)).Nodup := by
  induction pairs generalizing l with
  | nil => exact h
  | cons kv rest ih => exact ih _ (dictInsert_nodup kv.1 kv.2 h)

/-- Folding key inserts of a fixed value preserves key uniqueness. -/
theorem foldl_dictInsertKey_nodup {α : Type} (ks : List String) (v : α)
    (l : List (String × α)) (h : (dictKeys l).Nodup) :
    (dictKeys (ks.foldl (fun d k => dictInsert d k v) l)).Nodup := by
  induction ks generalizing l with
  | nil => exact h
  | cons k rest ih => exact ih _ (dictInsert_nodup k v h)

/-- Membership after a single insert. -/
theorem dictContains_dictInsert {α : Type} (l : List (String × α)) (k kp : String)
    (v : α) : dictContains (dictInsert l k v) kp = (dictContains l kp || kp == k) := by
  rw [Bool.eq_iff_iff, dictContains_iff_mem_keys, dictKeys_dictInsert]
  rcases Bool.eq_false_or_eq_true (dictContains l k) with hc | hc
  · rw [if_pos hc, ← dictContains_iff_mem_keys]
    constructor
    · intro hm; simp [hm]
    · intro hm
      rcases Bool.or_eq_true_iff.mp hm with hm | hm
      · exact hm
      · rw [eq_of_beq hm]; exact hc
  · rw [if_neg (by rw [hc]; exact Bool.false_ne_true)]
    rw [List.mem_append, ← dictContains_iff_mem_keys]
    constructor
    · rintro (hm | hm)
      · simp [hm]
      · simp [show kp = k from by simpa using hm]
    · intro hm
      rcases Bool.or_eq_true_iff.mp hm with hm | hm
      · exact Or.inl hm
      · exact Or.inr (by simpa using eq_of_beq hm)

/-- Membership after folding inserts: the old keys plus the inserted ones. -/
theorem dictContains_foldl_insert {α : Type} (pairs : List (String × α))
    (l : List (String × α)) (k : String) :
    dictContains (pairs.foldl (fun d kv => dictInsert d kv.1 kv.2) l) k =
      (dictContains l k || (pairs.map (fun kv => kv.1)).contains k) := by
  induction pairs generalizing l with
  | nil => simp
  | cons kv rest ih =>
    rw [List.foldl_cons, ih, dictContains_dictInsert]
    simp [List.contains_cons, Bool.or_assoc]

/-- Membership after folding key inserts of a fixed value. -/
theorem dictContains_foldl_insertKey {α : Type} (ks : List String) (v : α)
    (l : List (String × α)) (k : String) :
    dictContains (ks.foldl (fun d kk => dictInsert d kk v) l) k =
      (dictContains l k || ks.contains k) := by
  induction ks generalizing l with
  | nil => simp
  | cons kk rest ih =>
    rw [List.foldl_cons, ih, dictContains_dictInsert]
    by_cases hk : k = kk
    · simp [hk, List.contains_cons, Bool.or_assoc]
    · have hb : (k == kk) = false := by simp [hk]
      simp [hb, hk, List.contains_cons, Bool.or_assoc]

/-! ## Matrix cell lemmas -/

/-- The cell of a matrix at a row and column (0 outside the matrix). -/
def entry (m : List (List Int)) (r c : Nat) : Int := (m.getD r []).getD c 0

/-- The sum of a column. -/
def colSum (m : List (List Int)) (c : Nat) : Int :=
  (m.map (fun row => row.getD c 0)).sum

/-- Row lengths of a rectangular matrix. -/
def RowsLen (m : List (List Int)) (L : Nat) : Prop :=
  ∀ j, j < m.length → (m.getD j []).length = L

theorem modifyAt_length {α : Type} (l : List α) (i : Nat) (f : α → α) :
    (modifyAt l i f).length = l.length := by
  induction l generalizing i with
  | nil => rfl
  | cons x xs ih =>
    cases i with
    | zero => rfl
    | succ j => simp [modifyAt, ih]

theorem modifyAt_oob {α : Type} : ∀ (l : List α) (i : Nat) (f : α → α),
    l.length ≤ i → modifyAt l i f = l
  | [], _, _, _ => rfl
  | _ :: _, 0, _, h => by simp at h
  | x :: xs, i + 1, f, h => by
    simp only [modifyAt, List.cons.injEq, true_and]
    exact modifyAt_oob xs i f (by simpa using h)

theorem getD_modifyAt_ne {α : Type} (l : List α) (i j : Nat) (f : α → α) (d : α)
    (h : j ≠ i) : (modifyAt l i f).getD j d = l.getD j d := by
  induction l generalizing i j with
  | nil => rfl
  | cons x xs ih =>
    cases i with
    | zero =>
      cases j with
      | zero => exact absurd rfl h
      | succ jj => simp [modifyAt]
    | succ ii =>
      cases j with
      | zero => simp [modifyAt]
      | succ jj => simpa [modifyAt] using ih ii jj (fun he => h (by omega))

theorem getD_modifyAt_self {α : Type} (l : List α) (i : Nat) (f : α → α) (d : α)
    (h : i < l.length) : (modifyAt l i f).getD i d = f (l.getD i d) := by
  induction l generalizing i with
  | nil => simp at h
  | cons x xs ih =>
    cases i with
    | zero => simp [modifyAt]
    | succ ii => simpa [modifyAt] using ih ii (by simpa using h)

theorem idxOf?_spec : ∀ (l : List String) (a : String) (i : Nat),
    idxOf? l a = some i → i < l.length ∧ l.getD i "" = a
  | [], a, i, h => by simp [idxOf?] at h
  | x :: xs, a, i, h => by
    by_cases hx : x = a
    · rw [idxOf?, if_pos hx] at h
      cases h
      exact ⟨Nat.succ_pos _, hx⟩
    · rw [idxOf?, if_neg hx] at h
      cases hi : idxOf? xs a with
      | none => rw [hi] at h; simp at h
      | some j =>
        rw [hi] at h
        simp only [Option.map_some'] at h
        cases h
        rcases idxOf?_spec xs a j hi with ⟨h1, h2⟩
        exact ⟨by simpa using Nat.succ_lt_succ h1, by simpa using h2⟩

theorem idxOf?_of_mem {l : List String} {a : String} (h : a ∈ l) :
    ∃ i, idxOf? l a = some i := by
  induction l with
  | nil => simp at h
  | cons x xs ih =>
    by_cases hx : x = a
    · exact ⟨0, by simp [idxOf?, hx]⟩
    · have hm : a ∈ xs := by
        rcases List.mem_cons.mp h with hh | hh
        · exact absurd hh.symm hx
        · exact hh
      rcases ih hm with ⟨i, hi⟩
      exact ⟨i + 1, by simp [idxOf?, hx, hi]⟩

theorem idxOf?_getD_nodup : ∀ {l : List String}, l.Nodup → ∀ {r : Nat},
    r < l.length → idxOf? l (l.getD r "") = some r
  | [], _, r, hr => by simp at hr
  | x :: xs, hnd, r, hr => by
    rcases List.nodup_cons.mp hnd with ⟨hx, hxs⟩
    cases r with
    | zero => simp [idxOf?]
    | succ rr =>
      have hrr : rr < xs.length := by simpa using hr
      have hmem : xs.getD rr "" ∈ xs := by
        rw [List.getD_eq_getElem xs "" hrr]
        exact List.getElem_mem hrr
      have hne : x ≠ (x :: xs).getD (rr + 1) "" := by
        simp only [List.getD_cons_succ]
        intro he
        exact hx (he ▸ hmem)
      rw [idxOf?, if_neg hne]
      simp only [List.getD_cons_succ]
      rw [idxOf?_getD_nodup hxs hrr]
      rfl

/-! ## addAtCol lemmas -/

theorem rowsLen_modify {m : List (List Int)} {L : Nat} (h : RowsLen m L)
    (r c : Nat) (d : Int) :
    RowsLen (modifyAt m r (fun row => modifyAt row c (fun v => v + d))) L := by
  intro j hj
  rw [modifyAt_length] at hj
  by_cases hjr : j = r
  · subst hjr
    rw [getD_modifyAt_self _ _ _ _ hj, modifyAt_length]
    exact h j hj
  · rw [getD_modifyAt_ne _ _ _ _ _ hjr]
    exact h j hj

theorem entry_modify_ne_row {m : List (List Int)} {r j : Nat}
    {g : List Int → List Int} (h : j ≠ r) (cp : Nat) :
    entry (modifyAt m r g) j cp = entry m j cp := by
  unfold entry
  rw [getD_modifyAt_ne _ _ _ _ _ h]

theorem entry_modify_ne_col {m : List (List Int)} {r c cp j : Nat} {d : Int}
    (h : cp ≠ c) :
    entry (modifyAt m r (fun row => modifyAt row c (fun v => v + d))) j cp =
      entry m j cp := by
  by_cases hjr : j = r
  · subst hjr
    by_cases hrm : j < m.length
    · unfold entry
      rw [getD_modifyAt_self _ _ _ _ hrm, getD_modifyAt_ne _ _ _ _ _ h]
    · rw [modifyAt_oob _ _ _ (by omega)]
  · exact entry_modify_ne_row hjr cp

theorem entry_modify_self {m : List (List Int)} {r c : Nat} {d : Int} {L : Nat}
    (hr : r < m.length) (hL : RowsLen m L) (hc : c < L) :
    entry (modifyAt m r (fun row => modifyAt row c (fun v => v + d))) r c =
      entry m r c + d := by
  unfold entry
  rw [getD_modifyAt_self _ _ _ _ hr]
  rw [getD_modifyAt_self _ _ _ _ (by rw [hL r hr]; exact hc)]

theorem addAtCol_length {pids : List String} {d : Int} {c : Nat} :
    ∀ {ps : List String} {m m2 : List (List Int)},
      addAtCol pids d c ps m = some m2 → m2.length = m.length
  | [], m, m2, h => by
    simp only [addAtCol] at h
    cases h
    rfl
  | p :: ps, m, m2, h => by
    simp only [addAtCol] at h
    cases hidx : idxOf? pids p with
    | none => rw [hidx] at h; exact absurd h (by simp)
    | some r =>
      rw [hidx] at h
      rw [addAtCol_length h, modifyAt_length]

theorem addAtCol_rowsLen {pids : List String} {d : Int} {c : Nat} :
    ∀ {ps : List String} {m m2 : List (List Int)} {L : Nat},
      addAtCol pids d c ps m = some m2 → RowsLen m L → RowsLen m2 L
  | [], m, m2, L, h, hm => by
    simp only [addAtCol] at h
    cases h
    exact hm
  | p :: ps, m, m2, L, h, hm => by
    simp only [addAtCol] at h
    cases hidx : idxOf? pids p with
    | none => rw [hidx] at h; exact absurd h (by simp)
    | some r =>
      rw [hidx] at h
      exact addAtCol_rowsLen h (rowsLen_modify hm r c d)

theorem addAtCol_entry_ne_col {pids : List String} {d : Int} {c : Nat} :
    ∀ {ps : List String} {m m2 : List (List Int)},
      addAtCol pids d c ps m = some m2 → ∀ j cp, cp ≠ c →
      entry m2 j cp = entry m j cp
  | [], m, m2, h => by
    simp only [addAtCol] at h
    cases h
    exact fun j cp _ => rfl
  | p :: ps, m, m2, h => by
    simp only [addAtCol] at h
    cases hidx : idxOf? pids p with
    | none => rw [hidx] at h; exact absurd h (by simp)
    | some r =>
      rw [hidx] at h
      intro j cp hcp
      rw [addAtCol_entry_ne_col h j cp hcp, entry_modify_ne_col hcp]

theorem addAtCol_entry {pids : List String} {d : Int} {c : Nat} :
    ∀ {ps : List String} {m m2 : List (List Int)} {L : Nat},
      addAtCol pids d c ps m = some m2 →
      pids.Nodup → m.length = pids.length → RowsLen m L → c < L →
      ∀ {r : Nat}, r < pids.length →
      entry m2 r c = entry m r c + d * (ps.count (pids.getD r ""))
  | [], m, m2, L, h, _, _, _, _, r, _ => by
    simp only [addAtCol] at h
    cases h
    simp
  | p :: ps, m, m2, L, h, hnd, hlen, hrows, hc, r, hr => by
    simp only [addAtCol] at h
    cases hidx : idxOf? pids p with
    | none => rw [hidx] at h; exact absurd h (by simp)
    | some rp =>
      rw [hidx] at h
      have ih := addAtCol_entry h hnd
        (by rw [modifyAt_length]; exact hlen) (rowsLen_modify hrows rp c d) hc hr
      by_cases hpr : p = pids.getD r ""
      · have hrp : rp = r := by
          have h1 := idxOf?_getD_nodup hnd hr
          rw [← hpr] at h1
          rw [hidx] at h1
          exact Option.some.inj h1
      
        subst hrp
        rw [ih, entry_modify_self (by rw [hlen]; exact hr) hrows hc]
        rw [← hpr, List.count_cons_self]
        push_cast
        ring
      · have hrpne : r ≠ rp := by
          intro he
          subst he
          exact hpr ((idxOf?_spec pids p r hidx).2).symm
        rw [ih, entry_modify_ne_row hrpne]
        rw [List.count_cons_of_ne (fun he => hpr he.symm)]

theorem colSum_cons (row : List Int) (m : List (List Int)) (c : Nat) :
    colSum (row :: m) c = row.getD c 0 + colSum m c := by
  simp [colSum]

theorem colSum_modify : ∀ {m : List (List Int)} {r c : Nat} {d : Int},
    r < m.length → c < (m.getD r []).length →
    colSum (modifyAt m r (fun row => modifyAt row c (fun v => v + d))) c =
      colSum m c + d
  | [], r, c, d, hr, _ => by simp at hr
  | row :: rest, 0, c, d, _, hc => by
    simp only [modifyAt]
    rw [colSum_cons, colSum_cons]
    rw [getD_modifyAt_self _ _ _ _ (by simpa using hc)]
    ring
  | row :: rest, rr + 1, c, d, hr, hc => by
    simp only [modifyAt]
    rw [colSum_cons, colSum_cons,
      colSum_modify (by simpa using hr) (by simpa using hc)]
    ring

theorem colSum_modify_ne : ∀ {m : List (List Int)} {r c cp : Nat} {d : Int},
    cp ≠ c →
    colSum (modifyAt m r (fun row => modifyAt row c (fun v => v + d))) cp =
      colSum m cp
  | [], r, c, cp, d, _ => rfl
  | row :: rest, 0, c, cp, d, h => by
    simp only [modifyAt]
    rw [colSum_cons, colSum_cons, getD_modifyAt_ne _ _ _ _ _ h]
  | row :: rest, rr + 1, c, cp, d, h => by
    simp only [modifyAt]
    rw [colSum_cons, colSum_cons, colSum_modify_ne h]

theorem addAtCol_colSum {pids : List String} {d : Int} {c : Nat} :
    ∀ {ps : List String} {m m2 : List (List Int)} {L : Nat},
      addAtCol pids d c ps m = some m2 →
      m.length = pids.length → RowsLen m L → c < L →
      colSum m2 c = colSum m c + d * ps.length
  | [], m, m2, L, h, _, _, _ => by
    simp only [addAtCol] at h
    cases h
    simp
  | p :: ps, m, m2, L, h, hlen, hrows, hc => by
    simp only [addAtCol] at h
    cases hidx : idxOf? pids p with
    | none => rw [hidx] at h; exact absurd h (by simp)
    | some rp =>
      rw [hidx] at h
      have hrp : rp < m.length := by
        rw [hlen]; exact (idxOf?_spec pids p rp hidx).1
      have step := colSum_modify (m := m) (r := rp) (c := c) (d := d) hrp
        (by rw [hrows rp hrp]; exact hc)
      have ih := addAtCol_colSum h (by rw [modifyAt_length]; exact hlen)
        (rowsLen_modify hrows rp c d) hc
      rw [ih, step, List.length_cons]
      push_cast
      ring

theorem addAtCol_colSum_ne {pids : List String} {d : Int} {c : Nat} :
    ∀ {ps : List String} {m m2 : List (List Int)} (cp : Nat),
      addAtCol pids d c ps m = some m2 → cp ≠ c → colSum m2 cp = colSum m cp
  | [], m, m2, cp, h, _ => by
    simp only [addAtCol] at h
    cases h
    rfl
  | p :: ps, m, m2, cp, h, hne => by
    simp only [addAtCol] at h
    cases hidx : idxOf? pids p with
    | none => rw [hidx] at h; exact absurd h (by simp)
    | some rp =>
      rw [hidx] at h
      rw [addAtCol_colSum_ne cp h hne, colSum_modify_ne hne]

theorem addAtCol_some {pids : List String} {d : Int} {c : Nat} :
    ∀ {ps : List String} (m : List (List Int)),
      (∀ p, p ∈ ps → p ∈ pids) → ∃ m2, addAtCol pids d c ps m = some m2
  | [], m, _ => ⟨m, rfl⟩
  | p :: ps, m, hmem => by
    rcases idxOf?_of_mem (hmem p (List.mem_cons_self p ps)) with ⟨r, hr⟩
    simp only [addAtCol, hr]
    exact addAtCol_some _ (fun q hq => hmem q (List.mem_cons_of_mem p hq))

/-! ## fillMatrix lemmas -/

theorem fillMatrix_dims {tmap : List (String × Transition)} {pids : List String} :
    ∀ {ts : List String} {c : Nat} {m m2 : List (List Int)} {L : Nat},
      fillMatrix tmap pids ts c m = some m2 →
      m.length = pids.length → RowsLen m L →
      m2.length = pids.length ∧ RowsLen m2 L
  | [], c, m, m2, L, h, hlen, hrows => by
    simp only [fillMatrix] at h
    cases h
    exact ⟨hlen, hrows⟩
  | t :: ts, c, m, m2, L, h, hlen, hrows => by
    cases hg : dictGet tmap t with
    | none => simp only [fillMatrix, hg] at h; exact Option.noConfusion h
    | some td =>
      cases ha1 : addAtCol pids (-1) c td.preset m with
      | none => simp only [fillMatrix, hg, ha1] at h; exact Option.noConfusion h
      | some m1 =>
        cases ha2 : addAtCol pids 1 c td.postset m1 with
        | none => simp only [fillMatrix, hg, ha1, ha2] at h; exact Option.noConfusion h
        | some mm =>
          simp only [fillMatrix, hg, ha1, ha2] at h
          exact fillMatrix_dims h
            (by rw [addAtCol_length ha2, addAtCol_length ha1]; exact hlen)
            (addAtCol_rowsLen ha2 (addAtCol_rowsLen ha1 hrows))

theorem fillMatrix_entry_lt {tmap : List (String × Transition)} {pids : List String} :
    ∀ {ts : List String} {c : Nat} {m m2 : List (List Int)},
      fillMatrix tmap pids ts c m = some m2 →
      ∀ r cp, cp < c → entry m2 r cp = entry m r cp
  | [], c, m, m2, h => by
    simp only [fillMatrix] at h
    cases h
    exact fun _ _ _ => rfl
  | t :: ts, c, m, m2, h => by
    cases hg : dictGet tmap t with
    | none => simp only [fillMatrix, hg] at h; exact Option.noConfusion h
    | some td =>
      cases ha1 : addAtCol pids (-1) c td.preset m with
      | none => simp only [fillMatrix, hg, ha1] at h; exact Option.noConfusion h
      | some m1 =>
        cases ha2 : addAtCol pids 1 c td.postset m1 with
        | none => simp only [fillMatrix, hg, ha1, ha2] at h; exact Option.noConfusion h
        | some mm =>
          simp only [fillMatrix, hg, ha1, ha2] at h
          intro r cp hcp
          rw [fillMatrix_entry_lt h r cp (by omega)]
          rw [addAtCol_entry_ne_col ha2 r cp (by omega)]
          rw [addAtCol_entry_ne_col ha1 r cp (by omega)]

theorem fillMatrix_colSum_lt {tmap : List (String × Transition)} {pids : List String} :
    ∀ {ts : List String} {c : Nat} {m m2 : List (List Int)},
      fillMatrix tmap pids ts c m = some m2 →
      ∀ cp, cp < c → colSum m2 cp = colSum m cp
  | [], c, m, m2, h => by
    simp only [fillMatrix] at h
    cases h
    exact fun _ _ => rfl
  | t :: ts, c, m, m2, h => by
    cases hg : dictGet tmap t with
    | none => simp only [fillMatrix, hg] at h; exact Option.noConfusion h
    | some td =>
      cases ha1 : addAtCol pids (-1) c td.preset m with
      | none => simp only [fillMatrix, hg, ha1] at h; exact Option.noConfusion h
      | some m1 =>
        cases ha2 : addAtCol pids 1 c td.postset m1 with
        | none => simp only [fillMatrix, hg, ha1, ha2] at h; exact Option.noConfusion h
        | some mm =>
          simp only [fillMatrix, hg, ha1, ha2] at h
          intro cp hcp
          rw [fillMatrix_colSum_lt h cp (by omega)]
          rw [addAtCol_colSum_ne cp ha2 (by omega)]
          rw [addAtCol_colSum_ne cp ha1 (by omega)]

theorem fillMatrix_entry {tmap : List (String × Transition)} {pids : List String} :
    ∀ {ts : List String} {c : Nat} {m m2 : List (List Int)} {L : Nat},
      fillMatrix tmap pids ts c m = some m2 →
      pids.Nodup → m.length = pids.length → RowsLen m L → c + ts.length ≤ L →
      ∀ {i : Nat}, i < ts.length → ∀ {td : Transition},
      dictGet tmap (ts.getD i "") = some td →
      ∀ {r : Nat}, r < pids.length →
      entry m2 r (c + i) = entry m r (c + i)
        + (td.postset.count (pids.getD r "") : Int)
        - (td.preset.count (pids.getD r "") : Int)
  | [], c, m, m2, L, h, _, _, _, _, i, hi, td, hget, r, hr => by
    simp at hi
  | t :: ts, c, m, m2, L, h, hnd, hlen, hrows, hL, i, hi, td, hget, r, hr => by
    cases hg : dictGet tmap t with
    | none => simp only [fillMatrix, hg] at h; exact Option.noConfusion h
    | some td0 =>
      cases ha1 : addAtCol pids (-1) c td0.preset m with
      | none => simp only [fillMatrix, hg, ha1] at h; exact Option.noConfusion h
      | some m1 =>
        cases ha2 : addAtCol pids 1 c td0.postset m1 with
        | none => simp only [fillMatrix, hg, ha1, ha2] at h; exact Option.noConfusion h
        | some mm =>
          simp only [fillMatrix, hg, ha1, ha2] at h
          have hlen1 : m1.length = pids.length := by
            rw [addAtCol_length ha1]; exact hlen
          have hrows1 : RowsLen m1 L := addAtCol_rowsLen ha1 hrows
          have hlen2 : mm.length = pids.length := by
            rw [addAtCol_length ha2]; exact hlen1
          have hrows2 : RowsLen mm L := addAtCol_rowsLen ha2 hrows1
          cases i with
          | zero =>
            have htd : td0 = td := by
              rw [List.getD_cons_zero] at hget
              rw [hg] at hget
              exact Option.some.inj hget
            subst htd
            rw [Nat.add_zero]
            rw [fillMatrix_entry_lt h r c (by omega)]
            rw [addAtCol_entry ha2 hnd hlen1 hrows1 (by simp only [List.length_cons] at hL; omega) hr]
            rw [addAtCol_entry ha1 hnd hlen hrows (by simp only [List.length_cons] at hL; omega) hr]
            ring
          | succ ii =>
            rw [List.getD_cons_succ] at hget
            have hih := fillMatrix_entry h hnd hlen2 hrows2
              (by simp only [List.length_cons] at hL; omega)
              (by simpa using hi) hget hr
            rw [show c + (ii + 1) = (c + 1) + ii from by omega]
            rw [hih]
            rw [addAtCol_entry_ne_col ha2 r ((c + 1) + ii) (by omega)]
            rw [addAtCol_entry_ne_col ha1 r ((c + 1) + ii) (by omega)]

theorem fillMatrix_colSum {tmap : List (String × Transition)} {pids : List String} :
    ∀ {ts : List String} {c : Nat} {m m2 : List (List Int)} {L : Nat},
      fillMatrix tmap pids ts c m = some m2 →
      m.length = pids.length → RowsLen m L → c + ts.length ≤ L →
      ∀ {i : Nat}, i < ts.length → ∀ {td : Transition},
      dictGet tmap (ts.getD i "") = some td →
      colSum m2 (c + i) = colSum m (c + i)
        + (td.postset.length : Int) - (td.preset.length : Int)
  | [], c, m, m2, L, h, _, _, _, i, hi, td, hget => by
    simp at hi
  | t :: ts, c, m, m2, L, h, hlen, hrows, hL, i, hi, td, hget => by
    cases hg : dictGet tmap t with
    | none => simp only [fillMatrix, hg] at h; exact Option.noConfusion h
    | some td0 =>
      cases ha1 : addAtCol pids (-1) c td0.preset m with
      | none => simp only [fillMatrix, hg, ha1] at h; exact Option.noConfusion h
      | some m1 =>
        cases ha2 : addAtCol pids 1 c td0.postset m1 with
        | none => simp only [fillMatrix, hg, ha1, ha2] at h; exact Option.noConfusion h
        | some mm =>
          simp only [fillMatrix, hg, ha1, ha2] at h
          have hlen1 : m1.length = pids.length := by
            rw [addAtCol_length ha1]; exact hlen
          have hrows1 : RowsLen m1 L := addAtCol_rowsLen ha1 hrows
          have hlen2 : mm.length = pids.length := by
            rw [addAtCol_length ha2]; exact hlen1
          have hrows2 : RowsLen mm L := addAtCol_rowsLen ha2 hrows1
          cases i with
          | zero =>
            have htd : td0 = td := by
              rw [List.getD_cons_zero] at hget
              rw [hg] at hget
              exact Option.some.inj hget
            subst htd
            rw [Nat.add_zero]
            rw [fillMatrix_colSum_lt h c (by omega)]
            rw [addAtCol_colSum ha2 hlen1 hrows1 (by simp only [List.length_cons] at hL; omega)]
            rw [addAtCol_colSum ha1 hlen hrows (by simp only [List.length_cons] at hL; omega)]
            ring
          | succ ii =>
            rw [List.getD_cons_succ] at hget
            have hih := fillMatrix_colSum h hlen2 hrows2
              (by simp only [List.length_cons] at hL; omega)
              (by simpa using hi) hget
            rw [show c + (ii + 1) = (c + 1) + ii from by omega]
            rw [hih]
            rw [addAtCol_colSum_ne ((c + 1) + ii) ha2 (by omega)]
            rw [addAtCol_colSum_ne ((c + 1) + ii) ha1 (by omega)]

theorem fillMatrix_some {tmap : List (String × Transition)} {pids : List String} :
    ∀ {ts : List String} (c : Nat) (m : List (List Int)),
      (∀ t, t ∈ ts → ∃ td, dictGet tmap t = some td ∧
        (∀ p, p ∈ td.preset → p ∈ pids) ∧ (∀ p, p ∈ td.postset → p ∈ pids)) →
      ∃ m2, fillMatrix tmap pids ts c m = some m2
  | [], c, m, _ => ⟨m, rfl⟩
  | t :: ts, c, m, hmem => by
    rcases hmem t (List.mem_cons_self t ts) with ⟨td, hg, hpre, hpost⟩
    rcases addAtCol_some (d := -1) (c := c) m hpre with ⟨m1, ha1⟩
    rcases addAtCol_some (d := 1) (c := c) m1 hpost with ⟨mm, ha2⟩
    rcases fillMatrix_some (c + 1) mm
      (fun q hq => hmem q (List.mem_cons_of_mem t hq)) with ⟨m2, hfill⟩
    exact ⟨m2, by simp only [fillMatrix, hg, ha1, ha2, hfill]⟩

/-! ## The all-zero start matrix -/

theorem getD_replicate {α : Type} (a d : α) : ∀ (n i : Nat),
    (List.replicate n a).getD i d = if i < n then a else d
  | 0, i => by simp
  | n + 1, 0 => by simp
  | n + 1, i + 1 => by
    rw [List.replicate_succ, List.getD_cons_succ, getD_replicate a d n i]
    by_cases h : i < n <;> simp [h]

theorem entry_replicate_zero (np nt r c : Nat) :
    entry (List.replicate np (List.replicate nt (0 : Int))) r c = 0 := by
  unfold entry
  rw [getD_replicate]
  by_cases h : r < np
  · rw [if_pos h, getD_replicate]
    by_cases h2 : c < nt <;> simp [h2]
  · rw [if_neg h]
    simp

theorem rowsLen_replicate (np nt : Nat) :
    RowsLen (List.replicate np (List.replicate nt (0 : Int))) nt := by
  intro j hj
  rw [List.length_replicate] at hj
  rw [getD_replicate, if_pos hj, List.length_replicate]

theorem colSum_replicate_zero (np nt c : Nat) :
    colSum (List.replicate np (List.replicate nt (0 : Int))) c = 0 := by
  unfold colSum
  rw [List.map_replicate]
  rw [getD_replicate]
  by_cases h2 : c < nt <;> simp [h2]

/-! ## Relationship-builder lemmas -/

theorem dictGet_cons {α : Type} (kv : String × α) (rest : List (String × α))
    (k : String) :
    dictGet (kv :: rest) k = if kv.1 = k then some kv.2 else dictGet rest k := rfl

theorem dictKeys_dictModify {α : Type} (l : List (String × α)) (k : String)
    (f : α → α) : dictKeys (dictModify l k f) = dictKeys l := by
  unfold dictKeys dictModify
  rw [List.map_map]
  apply List.map_congr_left
  intro kv _
  by_cases hk : kv.1 = k <;> simp [hk]

theorem dictGet_dictModify {α : Type} : ∀ (l : List (String × α)) (k kp : String)
    (f : α → α), dictGet (dictModify l k f) kp =
      if kp = k then (dictGet l kp).map f else dictGet l kp
  | [], k, kp, f => by by_cases h : kp = k <;> simp [dictModify, dictGet, h]
  | kv :: rest, k, kp, f => by
    by_cases h1 : kv.1 = k
    · have hm : dictModify (kv :: rest) k f = (kv.1, f kv.2) :: dictModify rest k f := by
        simp [dictModify, h1]
      by_cases h2 : kv.1 = kp
      · rw [hm, dictGet_cons, if_pos h2, dictGet_cons, if_pos h2,
          if_pos (by rw [← h2, h1])]
        simp
      · rw [hm, dictGet_cons]
        simp only [if_neg h2]
        rw [dictGet_cons]
        simp only [if_neg h2]
        exact dictGet_dictModify rest k kp f
    · have hm : dictModify (kv :: rest) k f = kv :: dictModify rest k f := by
        simp [dictModify, h1]
      by_cases h2 : kv.1 = kp
      · rw [hm, dictGet_cons, if_pos h2, if_neg (fun he => h1 (by rw [h2, he])),
          dictGet_cons, if_pos h2]
      · rw [hm, dictGet_cons]
        simp only [if_neg h2]
        rw [dictGet_cons]
        simp only [if_neg h2]
        exact dictGet_dictModify rest k kp f

theorem dictKeys_applyArc (places : List (String × Int))
    (trans : List (String × Transition)) (a : Arc) :
    dictKeys (applyArc places trans a) = dictKeys trans := by
  rcases a with ⟨i, src, tgt⟩
  cases src with
  | none => rfl
  | some s =>
    cases tgt with
    | none => rfl
    | some t =>
      simp only [applyArc]
      by_cases h1 : (dictContains places s && dictContains trans t) = true
      · rw [if_pos h1, dictKeys_dictModify]
      · rw [if_neg h1]
        by_cases h2 : (dictContains trans s && dictContains places t) = true
        · rw [if_pos h2, dictKeys_dictModify]
        · rw [if_neg h2]

theorem dictKeys_foldl_applyArc (places : List (String × Int)) (arcs : List Arc) :
    ∀ (trans : List (String × Transition)),
      dictKeys (arcs.foldl (applyArc places) trans) = dictKeys trans := by
  induction arcs with
  | nil => intro trans; rfl
  | cons a rest ih =>
    intro trans
    rw [List.foldl_cons, ih, dictKeys_applyArc]

theorem resetPrePost_eq_map_keys (l : List (String × Transition)) :
    resetPrePost l = (dictKeys l).map (fun k => (k, (⟨[], []⟩ : Transition))) := by
  unfold resetPrePost dictKeys
  rw [List.map_map]
  rfl

theorem dictKeys_resetPrePost (ts : List (String × Transition)) :
    dictKeys (resetPrePost ts) = dictKeys ts := by
  unfold resetPrePost dictKeys
  rw [List.map_map]
  rfl

theorem resetPrePost_eq_of_keys {a b : List (String × Transition)}
    (h : dictKeys a = dictKeys b) : resetPrePost a = resetPrePost b := by
  rw [resetPrePost_eq_map_keys, resetPrePost_eq_map_keys, h]

theorem dictGet_resetPrePost : ∀ (ts : List (String × Transition)) (t : String),
    dictGet (resetPrePost ts) t =
      (dictGet ts t).map (fun _ => (⟨[], []⟩ : Transition))
  | [], t => rfl
  | kv :: rest, t => by
    have hm : resetPrePost (kv :: rest) = (kv.1, (⟨[], []⟩ : Transition)) :: resetPrePost rest := by
      simp [resetPrePost]
    by_cases h : kv.1 = t
    · rw [hm, dictGet_cons, if_pos h, dictGet_cons, if_pos h]
      simp
    · rw [hm, dictGet_cons]
      simp only [if_neg h]
      rw [dictGet_cons]
      simp only [if_neg h]
      exact dictGet_resetPrePost rest t

/-- The invariant carried through the arc loop: every identifier already in a
preset or postset is a key of the place dict. -/
def PrePostOk (places : List (String × Int)) (ts : List (String × Transition)) :
    Prop :=
  ∀ t td, dictGet ts t = some td →
    (∀ p, p ∈ td.preset → dictContains places p = true) ∧
    (∀ p, p ∈ td.postset → dictContains places p = true)

theorem prePostOk_reset (places : List (String × Int))
    (ts : List (String × Transition)) : PrePostOk places (resetPrePost ts) := by
  intro t td h
  rw [dictGet_resetPrePost] at h
  cases hg : dictGet ts t with
  | none => rw [hg] at h; exact Option.noConfusion h
  | some td0 =>
    rw [hg] at h
    simp only [Option.map_some'] at h
    cases h
    exact ⟨fun p hp => by simp at hp, fun p hp => by simp at hp⟩

theorem prePostOk_applyArc {places : List (String × Int)}
    {ts : List (String × Transition)} (h : PrePostOk places ts) (a : Arc) :
    PrePostOk places (applyArc places ts a) := by
  rcases a with ⟨i, src, tgt⟩
  cases src with
  | none => exact h
  | some s =>
    cases tgt with
    | none => exact h
    | some t =>
      simp only [applyArc]
      by_cases h1 : (dictContains places s && dictContains ts t) = true
      · rw [if_pos h1]
        intro u td hg
        rw [dictGet_dictModify] at hg
        by_cases hu : u = t
        · rw [if_pos hu] at hg
          cases hgo : dictGet ts u with
          | none => rw [hgo] at hg; exact Option.noConfusion hg
          | some td0 =>
            rw [hgo] at hg
            simp only [Option.map_some'] at hg
            cases hg
            rcases h u td0 hgo with ⟨hpre, hpost⟩
            constructor
            · intro p hp
              rcases List.mem_append.mp hp with hp | hp
              · exact hpre p hp
              · rw [List.mem_singleton] at hp
                subst hp
                exact (by rw [Bool.and_eq_true] at h1; exact h1.1)
            · exact hpost
        · rw [if_neg hu] at hg
          exact h u td hg
      · rw [if_neg h1]
        by_cases h2 : (dictContains ts s && dictContains places t) = true
        · rw [if_pos h2]
          intro u td hg
          rw [dictGet_dictModify] at hg
          by_cases hu : u = s
          · rw [if_pos hu] at hg
            cases hgo : dictGet ts u with
            | none => rw [hgo] at hg; exact Option.noConfusion hg
            | some td0 =>
              rw [hgo] at hg
              simp only [Option.map_some'] at hg
              cases hg
              rcases h u td0 hgo with ⟨hpre, hpost⟩
              constructor
              · exact hpre
              · intro p hp
                rcases List.mem_append.mp hp with hp | hp
                · exact hpost p hp
                · rw [List.mem_singleton] at hp
                  subst hp
                  exact (by rw [Bool.and_eq_true] at h2; exact h2.2)
          · rw [if_neg hu] at hg
            exact h u td hg
        · rw [if_neg h2]
          exact h

theorem prePostOk_foldl {places : List (String × Int)} (arcs : List Arc) :
    ∀ {ts : List (String × Transition)}, PrePostOk places ts →
      PrePostOk places (arcs.foldl (applyArc places) ts) := by
  induction arcs with
  | nil => exact fun h => h
  | cons a rest ih =>
    intro ts h
    rw [List.foldl_cons]
    exact ih (prePostOk_applyArc h a)

/-! ## Structure of a successful build and load -/

theorem build_fields {n m : PetriNet} (h : buildRelationships n = some m) :
    m.places = n.places ∧ m.arcs = n.arcs ∧
    m.place_ids = pySorted (dictKeys n.places) ∧
    m.transition_ids = pySorted (dictKeys n.transitions) ∧
    m.transitions = n.arcs.foldl (applyArc n.places) (resetPrePost n.transitions) ∧
    generateIncidenceMatrix m.transitions m.place_ids m.transition_ids =
      some m.incidence_matrix := by
  cases hg : generateIncidenceMatrix
      (n.arcs.foldl (applyArc n.places) (resetPrePost n.transitions))
      (pySorted (dictKeys n.places)) (pySorted (dictKeys n.transitions)) with
  | none => simp only [buildRelationships, hg] at h; exact Option.noConfusion h
  | some mat =>
    simp only [buildRelationships, hg] at h
    cases h
    exact ⟨rfl, rfl, rfl, rfl, rfl, hg⟩

/-- The plan of the always-succeeding build: every transition id listed in the
sorted id list has a record, and every preset/postset member is a place key,
hence a member of the sorted place id list. -/
theorem build_total (n : PetriNet) :
    ∃ m, buildRelationships n = some m := by
  have hpp : PrePostOk n.places
      (n.arcs.foldl (applyArc n.places) (resetPrePost n.transitions)) :=
    prePostOk_foldl n.arcs (prePostOk_reset n.places n.transitions)
  have hmem : ∀ t, t ∈ pySorted (dictKeys n.transitions) →
      ∃ td, dictGet (n.arcs.foldl (applyArc n.places) (resetPrePost n.transitions)) t = some td ∧
        (∀ p, p ∈ td.preset → p ∈ pySorted (dictKeys n.places)) ∧
        (∀ p, p ∈ td.postset → p ∈ pySorted (dictKeys n.places)) := by
    intro t ht
    have ht2 : t ∈ dictKeys (n.arcs.foldl (applyArc n.places) (resetPrePost n.transitions)) := by
      rw [dictKeys_foldl_applyArc, dictKeys_resetPrePost]
      exact (pySorted_perm _).subset ht
    have hcont := (dictContains_iff_mem_keys _ t).mpr ht2
    unfold dictContains at hcont
    cases hg : dictGet (n.arcs.foldl (applyArc n.places) (resetPrePost n.transitions)) t with
    | none => rw [hg] at hcont; simp at hcont
    | some td =>
      rcases hpp t td hg with ⟨hpre, hpost⟩
      refine ⟨td, rfl, fun p hp => ?_, fun p hp => ?_⟩
      · exact (pySorted_perm _).mem_iff.mpr
          ((dictContains_iff_mem_keys _ _).mp (hpre p hp))
      · exact (pySorted_perm _).mem_iff.mpr
          ((dictContains_iff_mem_keys _ _).mp (hpost p hp))
  rcases fillMatrix_some 0
      (List.replicate (pySorted (dictKeys n.places)).length
        (List.replicate (pySorted (dictKeys n.transitions)).length (0 : Int)))
      hmem with ⟨mat, hfill⟩
  exact ⟨⟨n.places, n.arcs.foldl (applyArc n.places) (resetPrePost n.transitions),
    n.arcs, pySorted (dictKeys n.places), pySorted (dictKeys n.transitions), mat⟩,
    by simp only [buildRelationships, generateIncidenceMatrix, hfill]⟩

theorem loadEntities_fields {self : PetriNet} {root : Xml} {n1 : PetriNet}
    {pairs : List (String × Int)}
    (hps : extractPlacePairs root = Except.ok pairs)
    (h : loadEntities self root = Except.ok n1) :
    n1.places = pairs.foldl (fun d kv => dictInsert d kv.1 kv.2) self.places ∧
    n1.transitions = (extractTransIds root).foldl
      (fun d k => dictInsert d k ⟨[], []⟩) self.transitions ∧
    n1.arcs = self.arcs ++ extractArcs root := by
  simp only [loadEntities, hps] at h
  cases h
  exact ⟨rfl, rfl, rfl⟩

theorem loadFromPnml_ok {self : PetriNet} {root : Xml} {n : PetriNet}
    (h : loadFromPnml self root = Except.ok n) :
    ∃ n1 pairs, extractPlacePairs root = Except.ok pairs ∧
      loadEntities self root = Except.ok n1 ∧ buildRelationships n1 = some n := by
  cases hE : loadEntities self root with
  | error e => simp only [loadFromPnml, hE] at h; exact Except.noConfusion h
  | ok n1 =>
    simp only [loadFromPnml, hE] at h
    cases hB : buildRelationships n1 with
    | none => simp only [hB] at h; exact Except.noConfusion h
    | some n2 =>
      simp only [hB] at h
      cases h
      cases hP : extractPlacePairs root with
      | error e =>
        simp only [loadEntities, hP] at hE
        exact Except.noConfusion hE
      | ok pairs => exact ⟨n1, pairs, rfl, rfl, hB⟩

theorem loaded_keys_nodup {self : PetriNet} {root : Xml} {n1 : PetriNet}
    {pairs : List (String × Int)}
    (hps : extractPlacePairs root = Except.ok pairs)
    (h : loadEntities self root = Except.ok n1)
    (hp : (dictKeys self.places).Nodup) (ht : (dictKeys self.transitions).Nodup) :
    (dictKeys n1.places).Nodup ∧ (dictKeys n1.transitions).Nodup := by
  rcases loadEntities_fields hps h with ⟨h1, h2, _⟩
  rw [h1, h2]
  exact ⟨foldl_dictInsert_nodup pairs _ hp, foldl_dictInsertKey_nodup _ _ _ ht⟩

/-- The derived fields of any net obtained by a successful load into an
object with duplicate-free key lists (in particular a fresh object). -/
theorem loaded_net_struct {self : PetriNet} {root : Xml} {n : PetriNet}
    (h : loadFromPnml self root = Except.ok n)
    (hp : (dictKeys self.places).Nodup) (ht : (dictKeys self.transitions).Nodup) :
    (dictKeys n.places).Nodup ∧
    n.place_ids = pySorted (dictKeys n.places) ∧
    (dictKeys n.transitions).Nodup ∧
    n.transition_ids = pySorted (dictKeys n.transitions) ∧
    generateIncidenceMatrix n.transitions n.place_ids n.transition_ids =
      some n.incidence_matrix := by
  rcases loadFromPnml_ok h with ⟨n1, pairs, hps, hE, hB⟩
  rcases loaded_keys_nodup hps hE hp ht with ⟨hnp, hnt⟩
  rcases build_fields hB with ⟨hpl, harc, hpid, htid, htr, hgen⟩
  have hkeysT : dictKeys n.transitions = dictKeys n1.transitions := by
    rw [htr, dictKeys_foldl_applyArc, dictKeys_resetPrePost]
  refine ⟨hpl ▸ hnp, by rw [hpid, hpl], ?_, by rw [htid, hkeysT], hgen⟩
  rw [hkeysT]
  exact hnt

/-- Keys of the empty dicts of a fresh object are trivially duplicate-free. -/
theorem init_keys_nodup :
    (dictKeys PetriNet.init.places).Nodup ∧
      (dictKeys PetriNet.init.transitions).Nodup :=
  ⟨List.nodup_nil, List.nodup_nil⟩

/-! ## Concrete documents and nets -/

/-- The namespace URL used by the concrete test documents. -/
def nsU : String := "ns"

/-- A namespaced place element. -/
def xplace (i : String) : Xml := Xml.elem (qualifyTag nsU "place") [("id", i)] none []

/-- A namespaced transition element. -/
def xtrans (i : String) : Xml := Xml.elem (qualifyTag nsU "transition") [("id", i)] none []

/-- A namespaced arc element. -/
def xarc (i s t : String) : Xml :=
  Xml.elem (qualifyTag nsU "arc") [("id", i), ("source", s), ("target", t)] none []

/-- One place, one transition and the parallel self-loop arc pair
p1 to t1 and t1 back to p1. -/
def eDoc : Xml := Xml.elem (qualifyTag nsU "pnml") [] none
  [xplace "p1", xtrans "t1", xarc "a1" "p1" "t1", xarc "a2" "t1" "p1"]

/-- A document holding a single place q1 and nothing else. -/
def qDoc : Xml := Xml.elem (qualifyTag nsU "pnml") [] none [xplace "q1"]

/-- A document without any XML namespace: one place, one transition. -/
def plainDoc : Xml := Xml.elem "pnml" [] none
  [Xml.elem "place" [("id", "p1")] none [], Xml.elem "transition" [("id", "t1")] none []]

/-- The namespace-qualified version of plainDoc. -/
def nsDoc : Xml := Xml.elem (qualifyTag nsU "pnml") [] none [xplace "p1", xtrans "t1"]

/-- The child elements of a place carrying a given marking configuration:
no initialMarking element, an initialMarking element without text, or an
initialMarking element whose text element holds the given string. -/
def markingChildren : Option (Option String) → List Xml
  | none => []
  | some none => [Xml.elem (qualifyTag nsU "initialMarking") [] none []]
  | some (some s) => [Xml.elem (qualifyTag nsU "initialMarking") [] none
      [Xml.elem (qualifyTag nsU "text") [] (some s) []]]

/-- A document holding the single place p1 with the given marking
configuration. -/
def markingDoc (mc : Option (Option String)) : Xml :=
  Xml.elem (qualifyTag nsU "pnml") [] none
    [Xml.elem (qualifyTag nsU "place") [("id", "p1")] none (markingChildren mc)]

/-- The net a fresh load of markingDoc produces when the place token is k. -/
def p1NetTok (k : Int) : PetriNet := ⟨[("p1", k)], [], [], ["p1"], [], [[]]⟩

/-- A defective hand-built net state: no places, no transitions, one arc with
a dangling source and an absent target attribute. -/
def c4Net : PetriNet := ⟨[], [], [⟨some "a1", some "p9", none⟩], [], [], []⟩

/-- A small well-formed net state before relationship building. -/
def c10Net : PetriNet :=
  ⟨[("p1", 0)], [("t1", ⟨[], []⟩)], [⟨some "a1", some "p1", some "t1"⟩], [], [], []⟩

/-- The result of building relationships on a fresh empty object. -/
def emptyBuilt : PetriNet := (buildRelationships PetriNet.init).getD PetriNet.init

/-! ## The claims -/

/-- C8: for every net on which the relationship builder succeeds (every net,
by C10), the incidence matrix has exactly len(place_ids) rows and every row
has exactly len(transition_ids) columns. -/
theorem matrix_shape (n m : PetriNet) (h : buildRelationships n = some m) :
    m.incidence_matrix.length = m.place_ids.length ∧
    (m.incidence_matrix.all fun row =>
      row.length == m.transition_ids.length) = true := by
  rcases build_fields h with ⟨-, -, -, -, -, hgen⟩
  unfold generateIncidenceMatrix at hgen
  rcases fillMatrix_dims hgen (by simp) (rowsLen_replicate _ _) with ⟨hlen, hrows⟩
  refine ⟨hlen, ?_⟩
  rw [List.all_eq_true]
  intro row hrow
  rcases List.mem_iff_getElem.mp hrow with ⟨j, hj, hje⟩
  have h2 := hrows j hj
  rw [List.getD_eq_getElem _ _ hj, hje] at h2
  simp [h2]

/-- C8 witness: the empty net yields a 0 x 0 matrix. -/
theorem matrix_shape_witness :
    (emptyBuilt.incidence_matrix.length = emptyBuilt.place_ids.length ∧
      (emptyBuilt.incidence_matrix.all fun row =>
        row.length == emptyBuilt.transition_ids.length) = true) ∧
    emptyBuilt.incidence_matrix = [] :=
  ⟨matrix_shape PetriNet.init emptyBuilt rfl, rfl⟩

/-- C5: the relationship builder is idempotent: building again on the result
of a successful build returns exactly the same net, so the preset/postset
lists and the matrix are identical both times. -/
theorem build_relationships_idempotent {n m : PetriNet}
    (h : buildRelationships n = some m) : buildRelationships m = some m := by
  rcases build_fields h with ⟨hpl, harc, hpid, htid, htr, hgen⟩
  have hkeysT : dictKeys m.transitions = dictKeys n.transitions := by
    rw [htr, dictKeys_foldl_applyArc, dictKeys_resetPrePost]
  have htr2 : m.arcs.foldl (applyArc m.places) (resetPrePost m.transitions) =
      m.transitions := by
    rw [harc, hpl, resetPrePost_eq_of_keys hkeysT, htr]
  have hpid2 : pySorted (dictKeys m.places) = m.place_ids := by
    rw [hpl, hpid]
  have htid2 : pySorted (dictKeys m.transitions) = m.transition_ids := by
    rw [hkeysT, htid]
  simp only [buildRelationships, htr2, hpid2, htid2, hgen]

/-- C5 witness: rebuilding the already-built empty net returns it unchanged. -/
theorem build_relationships_idempotent_witness :
    buildRelationships emptyBuilt = some emptyBuilt :=
  build_relationships_idempotent
    (show buildRelationships PetriNet.init = some emptyBuilt from rfl)

/-- C10: relationship building always succeeds (in particular the matrix
builder never raises), and in the built net every identifier in any preset or
postset is a member of place_ids, so every row-index lookup succeeds. -/
theorem preset_postset_wellformed (n : PetriNet) :
    ∃ m, buildRelationships n = some m ∧
      ∀ t td, dictGet m.transitions t = some td →
        ∀ p, p ∈ td.preset ++ td.postset → p ∈ m.place_ids := by
  rcases build_total n with ⟨m, hb⟩
  rcases build_fields hb with ⟨hpl, harc, hpid, htid, htr, hgen⟩
  refine ⟨m, hb, ?_⟩
  intro t td hg p hp
  have hpp : PrePostOk n.places
      (n.arcs.foldl (applyArc n.places) (resetPrePost n.transitions)) :=
    prePostOk_foldl n.arcs (prePostOk_reset n.places n.transitions)
  rw [htr] at hg
  rcases hpp t td hg with ⟨hpre, hpost⟩
  rw [hpid]
  rcases List.mem_append.mp hp with hp | hp
  · exact (pySorted_perm _).mem_iff.mpr
      ((dictContains_iff_mem_keys _ _).mp (hpre p hp))
  · exact (pySorted_perm _).mem_iff.mpr
      ((dictContains_iff_mem_keys _ _).mp (hpost p hp))

/-- C10 witness: on a concrete net the build succeeds and the preset entry p1
of t1 is a member of the produced place_ids. -/
theorem preset_postset_wellformed_witness :
    "p1" ∈ ((buildRelationships c10Net).getD PetriNet.init).place_ids := by
  rcases preset_postset_wellformed c10Net with ⟨m, hb, hmem⟩
  have hM : buildRelationships c10Net =
      some ((buildRelationships c10Net).getD PetriNet.init) := rfl
  rw [hM] at hb
  cases hb
  exact hmem "t1" ⟨["p1"], []⟩ (by decide) "p1" (by decide)

/-- C7: after a fresh load, place_ids has exactly len(places) entries and is
strictly sorted in the code-point lexicographic order with no duplicates, and
likewise for transition_ids. -/
theorem id_lists_sorted_complete (root : Xml) (n : PetriNet)
    (h : loadFromPnml PetriNet.init root = Except.ok n) :
    n.place_ids.length = n.places.length ∧ n.place_ids.Nodup ∧
    List.Sorted strLtRel n.place_ids ∧
    n.transition_ids.length = n.transitions.length ∧ n.transition_ids.Nodup ∧
    List.Sorted strLtRel n.transition_ids := by
  rcases loaded_net_struct h init_keys_nodup.1 init_keys_nodup.2 with
    ⟨hnp, hpid, hnt, htid, -⟩
  refine ⟨?_, ?_, ?_, ?_, ?_, ?_⟩
  · rw [hpid, (pySorted_perm _).length_eq]
    simp [dictKeys]
  · rw [hpid]
    exact (pySorted_perm _).nodup_iff.mpr hnp
  · rw [hpid]
    exact pySorted_sorted_lt hnp
  · rw [htid, (pySorted_perm _).length_eq]
    simp [dictKeys]
  · rw [htid]
    exact (pySorted_perm _).nodup_iff.mpr hnt
  · rw [htid]
    exact pySorted_sorted_lt hnt

/-- C7 witness: the identifier lists of a concretely loaded net. -/
theorem id_lists_sorted_complete_witness :
    (loadedNet eDoc).place_ids.length = (loadedNet eDoc).places.length ∧
    (loadedNet eDoc).place_ids.Nodup ∧
    List.Sorted strLtRel (loadedNet eDoc).place_ids ∧
    (loadedNet eDoc).transition_ids.length = (loadedNet eDoc).transitions.length ∧
    (loadedNet eDoc).transition_ids.Nodup ∧
    List.Sorted strLtRel (loadedNet eDoc).transition_ids :=
  id_lists_sorted_complete eDoc (loadedNet eDoc) rfl

/-- C1: in a freshly loaded net, the incidence matrix cell at row r and
column c is the number of occurrences of the r-th place id in the c-th
transition postset minus its occurrences in the preset - contributions
accumulate additively. -/
theorem incidence_entry_counts (root : Xml) (n : PetriNet)
    (h : loadFromPnml PetriNet.init root = Except.ok n)
    (r c : Nat) (hr : r < n.place_ids.length) (hc : c < n.transition_ids.length)
    (td : Transition)
    (ht : dictGet n.transitions (n.transition_ids.getD c "") = some td) :
    entry n.incidence_matrix r c =
      (td.postset.count (n.place_ids.getD r "") : Int)
        - (td.preset.count (n.place_ids.getD r "") : Int) := by
  rcases loaded_net_struct h init_keys_nodup.1 init_keys_nodup.2 with
    ⟨hnp, hpid, -, -, hgen⟩
  have hnd : n.place_ids.Nodup := by
    rw [hpid]
    exact (pySorted_perm _).nodup_iff.mpr hnp
  unfold generateIncidenceMatrix at hgen
  have hmain := fillMatrix_entry hgen hnd (by simp) (rowsLen_replicate _ _)
    (by simp) hc ht hr
  simpa [entry_replicate_zero] using hmain

/-- C1 witness: the self-loop arc pair of eDoc gives preset = postset = one
occurrence of p1, and the matrix cell is 1 - 1 = 0. -/
theorem incidence_entry_counts_witness :
    entry (loadedNet eDoc).incidence_matrix 0 0 = 0 := by
  have h := incidence_entry_counts eDoc (loadedNet eDoc) rfl 0 0 (by decide)
    (by decide) ⟨["p1"], ["p1"]⟩ (by decide)
  rw [h]
  decide

/-- C9: in a freshly loaded net, the sum of the matrix column of a transition
equals the size of its postset minus the size of its preset (as multisets,
duplicates included). -/
theorem matrix_column_sum (root : Xml) (n : PetriNet)
    (h : loadFromPnml PetriNet.init root = Except.ok n)
    (c : Nat) (hc : c < n.transition_ids.length) (td : Transition)
    (ht : dictGet n.transitions (n.transition_ids.getD c "") = some td) :
    colSum n.incidence_matrix c =
      (td.postset.length : Int) - (td.preset.length : Int) := by
  rcases loaded_net_struct h init_keys_nodup.1 init_keys_nodup.2 with
    ⟨-, -, -, -, hgen⟩
  unfold generateIncidenceMatrix at hgen
  have hmain := fillMatrix_colSum hgen (by simp) (rowsLen_replicate _ _)
    (by simp) hc ht
  simpa [colSum_replicate_zero] using hmain

/-- C9 witness: the single column of the concretely loaded self-loop net sums
to zero, its postset and preset both having one element. -/
theorem matrix_column_sum_witness :
    colSum (loadedNet eDoc).incidence_matrix 0 = 0 := by
  have h := matrix_column_sum eDoc (loadedNet eDoc) rfl 0 (by decide)
    ⟨["p1"], ["p1"]⟩ (by decide)
  rw [h]
  decide

/-! ## Consistency checker claims -/

theorem endpointKnown_iff (n : PetriNet) (o : Option String) :
    endpointKnown n o = true ↔
      ∃ s, o = some s ∧ (s ∈ dictKeys n.places ∨ s ∈ dictKeys n.transitions) := by
  cases o with
  | none => simp [endpointKnown]
  | some s =>
    simp only [endpointKnown, Bool.or_eq_true]
    rw [dictContains_iff_mem_keys, dictContains_iff_mem_keys]
    constructor
    · intro h
      exact ⟨s, rfl, h⟩
    · rintro ⟨s2, he, h⟩
      cases he
      exact h

theorem flatMap_nil_iff {α β : Type} : ∀ (l : List α) (f : α → List β),
    (l.flatMap f = [] ↔ ∀ a, a ∈ l → f a = [])
  | [], f => by simp
  | x :: xs, f => by
    rw [List.flatMap_cons, List.append_eq_nil, flatMap_nil_iff xs f]
    simp

theorem length_flatMap {α β : Type} : ∀ (l : List α) (f : α → List β),
    (l.flatMap f).length = (l.map (fun a => (f a).length)).sum
  | [], _ => rfl
  | x :: xs, f => by simp [List.flatMap_cons, length_flatMap xs f]

/-- C4: check_consistency passes exactly when the net has a place, a
transition, and every arc endpoint resolves to a known place or transition
id; the collected defects are one per violated global check followed by one
per unknown endpoint, global checks first and arcs in list order. -/
theorem check_consistency_spec (n : PetriNet) :
    (check_consistency n = true ↔
      (n.places ≠ [] ∧ n.transitions ≠ [] ∧
        ∀ a, a ∈ n.arcs →
          (∃ s, a.source = some s ∧
            (s ∈ dictKeys n.places ∨ s ∈ dictKeys n.transitions)) ∧
          (∃ t, a.target = some t ∧
            (t ∈ dictKeys n.places ∨ t ∈ dictKeys n.transitions)))) ∧
    (consistencyErrors n).length =
      ((if n.places = [] then 1 else 0) + (if n.transitions = [] then 1 else 0)
        + (n.arcs.map (fun a =>
            (if endpointKnown n a.source = true then 0 else 1)
              + (if endpointKnown n a.target = true then 0 else 1))).sum) ∧
    consistencyErrors n =
      (if n.places = [] then [Defect.noPlaces] else []) ++
        (if n.transitions = [] then [Defect.noTransitions] else []) ++
        n.arcs.flatMap (fun a =>
          (if endpointKnown n a.source = true then []
            else [Defect.badSource a.id a.source]) ++
          (if endpointKnown n a.target = true then []
            else [Defect.badTarget a.id a.target])) := by
  have h3 : consistencyErrors n =
      (if n.places = [] then [Defect.noPlaces] else []) ++
        (if n.transitions = [] then [Defect.noTransitions] else []) ++
        n.arcs.flatMap (fun a =>
          (if endpointKnown n a.source = true then []
            else [Defect.badSource a.id a.source]) ++
          (if endpointKnown n a.target = true then []
            else [Defect.badTarget a.id a.target])) := by
    unfold consistencyErrors arcDefects
    by_cases hp : n.places = [] <;> by_cases ht : n.transitions = [] <;>
      simp [hp, ht]
  have e1 : (if n.places = [] then [Defect.noPlaces] else []).length =
      (if n.places = [] then 1 else 0) := by
    by_cases hp : n.places = [] <;> simp [hp]
  have e2 : (if n.transitions = [] then [Defect.noTransitions] else []).length =
      (if n.transitions = [] then 1 else 0) := by
    by_cases ht : n.transitions = [] <;> simp [ht]
  have e3 : (n.arcs.flatMap (fun a =>
      (if endpointKnown n a.source = true then []
        else [Defect.badSource a.id a.source]) ++
      (if endpointKnown n a.target = true then []
        else [Defect.badTarget a.id a.target]))).length =
      (n.arcs.map (fun a =>
        (if endpointKnown n a.source = true then 0 else 1)
          + (if endpointKnown n a.target = true then 0 else 1))).sum := by
    rw [length_flatMap]
    apply congrArg List.sum
    apply List.map_congr_left
    intro a _
    by_cases h1 : endpointKnown n a.source = true <;>
      by_cases h2 : endpointKnown n a.target = true <;> simp [h1, h2]
  have hlen : (consistencyErrors n).length =
      ((if n.places = [] then 1 else 0) + (if n.transitions = [] then 1 else 0)
        + (n.arcs.map (fun a =>
            (if endpointKnown n a.source = true then 0 else 1)
              + (if endpointKnown n a.target = true then 0 else 1))).sum) := by
    rw [h3, List.length_append, List.length_append, e1, e2, e3]
  refine ⟨?_, hlen, h3⟩
  · unfold check_consistency
    rw [List.isEmpty_iff, h3, List.append_eq_nil, List.append_eq_nil,
      flatMap_nil_iff]
    constructor
    · rintro ⟨⟨hp, ht⟩, hall⟩
      refine ⟨fun he => by simp [he] at hp, fun he => by simp [he] at ht, ?_⟩
      intro a ha
      have h2 := hall a ha
      rw [List.append_eq_nil] at h2
      rcases h2 with ⟨hsrc, htgt⟩
      constructor
      · rw [← endpointKnown_iff]
        by_contra hk
        rw [if_neg hk] at hsrc
        exact List.noConfusion hsrc
      · rw [← endpointKnown_iff]
        by_contra hk
        rw [if_neg hk] at htgt
        exact List.noConfusion htgt
    · rintro ⟨hp, ht, hall⟩
      refine ⟨⟨by rw [if_neg hp], by rw [if_neg ht]⟩, ?_⟩
      intro a ha
      rcases hall a ha with ⟨hs, ht2⟩
      rw [List.append_eq_nil]
      exact ⟨by rw [if_pos ((endpointKnown_iff n a.source).mpr hs)],
        by rw [if_pos ((endpointKnown_iff n a.target).mpr ht2)]⟩

/-- C4 witness: the defective concrete net fails the check, with the two
global defects first and then the two defects of its single arc. -/
theorem check_consistency_spec_witness :
    check_consistency c4Net = false ∧
    consistencyErrors c4Net = [Defect.noPlaces, Defect.noTransitions,
      Defect.badSource (some "a1") (some "p9"),
      Defect.badTarget (some "a1") none] := by
  constructor
  · have h := (check_consistency_spec c4Net).1
    cases hc : check_consistency c4Net
    · rfl
    · exact absurd rfl (h.mp hc).1
  · decide

/-! ## Load lifecycle claims -/

/-- The first loaded net. -/
def c2First : PetriNet := loadedNet eDoc

/-- The net after a second load of qDoc into the same object. -/
def c2Second : PetriNet :=
  match loadFromPnml c2First qDoc with
  | Except.ok n => n
  | Except.error _ => PetriNet.init

/-- C2 counterexample: after loading eDoc and then qDoc (one place q1, no
transitions, no arcs) into the same object, the place p1 of the first
document is still present and the arc list is not empty, so the second load
did not discard the previously loaded net. -/
theorem second_load_keeps_old_entities :
    loadFromPnml c2First qDoc = Except.ok c2Second ∧
    dictContains c2Second.places "p1" = true ∧ c2Second.arcs ≠ [] :=
  ⟨rfl, by decide, by decide⟩

/-- C2 amended: a load into an existing object accumulates entities instead
of rebuilding from scratch: the arc list is the old arcs followed by the
document arcs, and an identifier is a place (transition) key afterwards
exactly when it already was one or the document declares it (same-id entries
are overwritten). Only a load into a fresh object yields exactly the
entities of the document. -/
theorem load_accumulates_entities (self : PetriNet) (root : Xml) (n : PetriNet)
    (pairs : List (String × Int)) (k : String)
    (h : loadFromPnml self root = Except.ok n)
    (hp : extractPlacePairs root = Except.ok pairs) :
    n.arcs = self.arcs ++ extractArcs root ∧
    dictContains n.places k =
      (dictContains self.places k || (pairs.map (fun kv => kv.1)).contains k) ∧
    dictContains n.transitions k =
      (dictContains self.transitions k || (extractTransIds root).contains k) := by
  rcases loadFromPnml_ok h with ⟨n1, pairs2, hps2, hE, hB⟩
  have hpairs : pairs2 = pairs := by
    rw [hps2] at hp
    exact Except.ok.inj hp
  subst hpairs
  rcases loadEntities_fields hps2 hE with ⟨h1, h2, harc⟩
  rcases build_fields hB with ⟨hpl, harcB, -, -, htrB, -⟩
  have hkeysT : dictKeys n.transitions = dictKeys n1.transitions := by
    rw [htrB, dictKeys_foldl_applyArc, dictKeys_resetPrePost]
  refine ⟨?_, ?_, ?_⟩
  · rw [harcB, harc]
  · rw [hpl, h1, dictContains_foldl_insert]
  · have hct : dictContains n.transitions k = dictContains n1.transitions k := by
      rw [Bool.eq_iff_iff, dictContains_iff_mem_keys,
        dictContains_iff_mem_keys, hkeysT]
    rw [hct, h2, dictContains_foldl_insertKey]

/-- C2 amended witness: the concrete second load keeps the old arc list and
the key p1, while qDoc contributes neither. -/
theorem load_accumulates_entities_witness :
    c2Second.arcs = c2First.arcs ++ extractArcs qDoc ∧
    dictContains c2Second.places "p1" =
      (dictContains c2First.places "p1" ||
        (([(("q1" : String), (0 : Int))]).map (fun kv => kv.1)).contains "p1") ∧
    dictContains c2Second.transitions "p1" =
      (dictContains c2First.transitions "p1" ||
        (extractTransIds qDoc).contains "p1") :=
  load_accumulates_entities c2First qDoc c2Second [("q1", 0)] "p1" rfl rfl

/-! ## Marking parsing claims -/

/-- C3 counterexample: a place whose initialMarking text is not numeric makes
int() raise ValueError, aborting the load, instead of defaulting the token
count to 0. -/
theorem nonnumeric_marking_fails_load :
    loadFromPnml PetriNet.init (markingDoc (some (some "abc"))) =
      Except.error "ValueError" := rfl

/-- C3 amended: a missing initialMarking element, a missing text element or
an empty text give token count 0 and the load succeeds; a non-empty marking
text goes through int(), which yields the parsed token count on success and
aborts the load with ValueError on failure. -/
theorem marking_default_and_numeric (s : String) (hs : s ≠ "") :
    loadFromPnml PetriNet.init (markingDoc none) = Except.ok (p1NetTok 0) ∧
    loadFromPnml PetriNet.init (markingDoc (some none)) = Except.ok (p1NetTok 0) ∧
    loadFromPnml PetriNet.init (markingDoc (some (some ""))) =
      Except.ok (p1NetTok 0) ∧
    loadFromPnml PetriNet.init (markingDoc (some (some s))) =
      (pyInt s).map p1NetTok := by
  refine ⟨rfl, rfl, rfl, ?_⟩
  have h1 : extractPlacePairs (markingDoc (some (some s))) =
      Except.bind (if s = "" then Except.ok (0 : Int) else pyInt s)
        (fun t => Except.ok [(("p1" : String), t)]) := by
    unfold extractPlacePairs
    rw [show findAllTag (markingDoc (some (some s)))
        (qualifyTag (nsUrlOf (markingDoc (some (some s))).tagOf) "place") =
        [Xml.elem (qualifyTag nsU "place") [("id", "p1")] none
          (markingChildren (some (some s)))] from rfl]
    unfold placePairsLoop
    rw [show parseMarking (nsUrlOf (markingDoc (some (some s))).tagOf)
        (Xml.elem (qualifyTag nsU "place") [("id", "p1")] none
          (markingChildren (some (some s)))) =
        (if s = "" then Except.ok 0 else pyInt s) from rfl]
    cases hif : (if s = "" then Except.ok (0 : Int) else pyInt s) with
    | error e => rfl
    | ok k => rfl
  rw [if_neg hs] at h1
  unfold loadFromPnml loadEntities
  rw [h1]
  cases hpi : pyInt s with
  | error e => rfl
  | ok k => rfl

/-- C3 amended witness: no marking element gives token 0, text 5 gives
token 5. -/
theorem marking_default_and_numeric_witness :
    loadFromPnml PetriNet.init (markingDoc none) = Except.ok (p1NetTok 0) ∧
    loadFromPnml PetriNet.init (markingDoc (some (some "5"))) =
      (pyInt "5").map p1NetTok :=
  ⟨(marking_default_and_numeric "5" (by decide)).1,
    (marking_default_and_numeric "5" (by decide)).2.2.2⟩

/-! ## Namespace handling claim -/

/-- C6: the namespaced document loads its place and transition, but the
identical document without namespaces loads an empty net: str.split never
raises IndexError, so the loader always builds a non-empty namespace map
(here mapping the path prefix to the URL pnml taken from the root tag) and
searches for the tag braced-pnml place, which matches nothing in an
unnamespaced document - contradicting both the specification and the
source comment saying the helper finds tags with or without namespace. -/
theorem namespace_handling_bug :
    dictContains (loadedNet nsDoc).places "p1" = true ∧
    dictContains (loadedNet nsDoc).transitions "t1" = true ∧
    (loadedNet plainDoc).places = [] ∧
    (loadedNet plainDoc).transitions = [] ∧
    nsUrlOf plainDoc.tagOf = "pnml" :=
  ⟨by decide, by decide, rfl, rfl, rfl⟩
